import Mathlib

/-
Verification of the document-grounded conversational session manager of the
google-filesearch-nextjs repository against its natural-language specification.

The embedding models, at the character-list level:
  * the Reference Extractor of `app/components/ChatInterface.tsx`
    (`parsePageReferences`, which scans an answer with the regex
    `/\[Se Sida (\d+)\]/gi` via `matchAll`, and `formatMessageContent`, which
    splits the content on the same pattern keeping the delimiters and turns
    each delimiter into a clickable page button);
  * the conversation state transition of `sendMessage` in the same component;
  * the backend-facing history construction and citation normalization of the
    chat route (`app/api/chat/route.ts`);
  * the system-instruction builder `buildSystemInstruction` of the chat route;
  * the upload route `app/api/upload-pdf/route.ts` (registration, the
    2-second poll loop, the non-fatal page-image extraction and the temporary
    file lifecycle), with the external backends abstracted as environments.

Text is modelled as `List Char`.  JavaScript numbers obtained from
`parseInt(digits, 10)` are modelled as `Nat`.
-/

namespace GfsSpec

/-- Shorthand: the character list of a string literal. -/
def str (s : String) : List Char := s.toList

/-! ## The marker pattern `/\[Se Sida (\d+)\]/i`

`header` is the literal part of the pattern after the opening bracket, in
lower case; the `i` flag of the source regex is modelled by comparing each
input character through `Char.toLower` (all pattern letters are ASCII, where
JavaScript case-insensitive matching and ASCII lowercasing agree). -/

/-- The lowercase literal `Se Sida ` (with the trailing space) that follows
`[` in the marker pattern of `parsePageReferences`. -/
def header : List Char := ['s', 'e', ' ', 's', 'i', 'd', 'a', ' ']

/-- Consume the pattern literal `hs` case-insensitively from the front of the
input, returning the rest of the input on success. -/
def eatHeader : List Char → List Char → Option (List Char)
  | [], s => some s
  | _ :: _, [] => none
  | h :: hs, c :: cs => if c.toLower = h then eatHeader hs cs else none

/-- Numeric value of one ASCII digit character. -/
def digitVal (c : Char) : Nat := c.toNat - 48

/-- `parseInt(ds, 10)` on a string of ASCII digits. -/
def digitsToNat (ds : List Char) : Nat :=
  ds.foldl (fun a c => a * 10 + digitVal c) 0

/-- Try to match the marker regex `\[Se Sida (\d+)\]` (case-insensitively)
at the start of the input.  On success, return the captured page number and
the input following the closing bracket.  The greedy `\d+` followed by the
literal `]` matches exactly a maximal nonempty digit run followed by `]`. -/
def matchMarker : List Char → Option (Nat × List Char)
  | [] => none
  | c :: t =>
    if c = '[' then
      match eatHeader header t with
      | some t2 =>
        match t2.dropWhile Char.isDigit with
        | c4 :: t4 =>
          if c4 = ']' then
            if (t2.takeWhile Char.isDigit).isEmpty then none
            else some (digitsToNat (t2.takeWhile Char.isDigit), t4)
          else none
        | [] => none
      | none => none
    else none

/-! ## The Reference Extractor

`parsePageReferences` models the `matchAll` scan: at each position try the
marker pattern; on a match, emit its number and continue after the match;
otherwise move one character forward.  `formatMessageContent` models
`content.split(/(\[Se Sida \d+\])/gi)` followed by the per-part
classification: the split produces an alternating list of plain-text parts
(kept even when empty) and marker parts, and each marker part is rendered as
a clickable button carrying the parsed page number.

Both are driven by the same primitive `matchMarker`, as are the two
JavaScript regexes (they differ only in capture-group placement).  The
functions take a fuel argument equal to the input length so that they are
structurally recursive and kernel-computable; each step consumes at least one
character, so the fuel never runs out (`parseRefsF_fuel`, `scanAuxF_fuel`). -/

/-- Fueled `matchAll`-style scan returning all matched page numbers. -/
def parseRefsF : Nat → List Char → List Nat
  | _, [] => []
  | 0, _ :: _ => []
  | fuel + 1, c :: rest =>
    match matchMarker (c :: rest) with
    | some (n, r) => n :: parseRefsF fuel r
    | none => parseRefsF fuel rest

/-- `parsePageReferences` of `ChatInterface.tsx`: all `[Se Sida N]` page
numbers of a text, in left-to-right order, duplicates included. -/
def parsePageReferences (s : List Char) : List Nat := parseRefsF s.length s

/-- One node of the rendered message: a plain-text span, or the clickable
page-reference button produced for a marker (carrying the page number passed
to `onPageClick`). -/
inductive Seg where
  | text : List Char → Seg
  | ref : Nat → Seg
deriving DecidableEq, Repr

/-- Fueled scan splitting a text into alternating plain spans and marker
buttons, accumulating the current plain span in `acc` (reversed). -/
def scanAuxF : Nat → List Char → List Char → List Seg
  | _, acc, [] => [Seg.text acc.reverse]
  | 0, acc, s => [Seg.text (acc.reverse ++ s)]
  | fuel + 1, acc, c :: rest =>
    match matchMarker (c :: rest) with
    | some (n, r) => Seg.text acc.reverse :: Seg.ref n :: scanAuxF fuel [] r
    | none => scanAuxF fuel (c :: acc) rest

/-- `formatMessageContent` of `ChatInterface.tsx`: split the content on the
marker pattern (keeping delimiters, keeping empty parts) and render marker
parts as page buttons, other parts as plain spans. -/
def formatMessageContent (s : List Char) : List Seg := scanAuxF s.length [] s

/-- Decimal digit characters of `n` (most significant first), as JavaScript
string interpolation renders a number. -/
def natToDigitChars (n : Nat) : List Char :=
  if n = 0 then ['0'] else (Nat.digits 10 n).reverse.map Nat.digitChar

/-- The visible label of the button rendered for page `n` (`Sida {n}`). -/
def refButtonLabel (n : Nat) : List Char := str "Sida " ++ natToDigitChars n

/-! ## Digit lemmas -/

theorem digitVal_digitChar {d : Nat} (hd : d < 10) :
    digitVal (Nat.digitChar d) = d := by
  interval_cases d <;> decide

theorem isDigit_digitChar {d : Nat} (hd : d < 10) :
    (Nat.digitChar d).isDigit = true := by
  interval_cases d <;> decide

theorem foldr_digits (L : List Nat) (hL : ∀ d ∈ L, d < 10) :
    L.foldr (fun d a => a * 10 + digitVal (Nat.digitChar d)) 0 = Nat.ofDigits 10 L := by
  induction L with
  | nil => simp
  | cons d L ih =>
    have hd : d < 10 := hL d (List.mem_cons_self _ _)
    have ih' := ih (fun x hx => hL x (List.mem_cons_of_mem _ hx))
    simp only [List.foldr_cons, ih', Nat.ofDigits_cons, digitVal_digitChar hd]
    ring

theorem digitsToNat_natToDigitChars (n : Nat) :
    digitsToNat (natToDigitChars n) = n := by
  by_cases h : n = 0
  · subst h; decide
  · unfold natToDigitChars digitsToNat
    rw [if_neg h, List.foldl_map, List.foldl_reverse]
    have hb : ∀ d ∈ Nat.digits 10 n, d < 10 :=
      fun d hd => Nat.digits_lt_base (by norm_num) hd
    have := foldr_digits (Nat.digits 10 n) hb
    calc (Nat.digits 10 n).foldr (fun x y => y * 10 + digitVal (Nat.digitChar x)) 0
        = Nat.ofDigits 10 (Nat.digits 10 n) := this
      _ = n := by exact_mod_cast Nat.ofDigits_digits 10 n

theorem natToDigitChars_isDigit (n : Nat) :
    ∀ c ∈ natToDigitChars n, c.isDigit = true := by
  intro c hc
  by_cases h : n = 0
  · subst h; simp [natToDigitChars] at hc; subst hc; decide
  · simp only [natToDigitChars, if_neg h, List.mem_map, List.mem_reverse] at hc
    obtain ⟨d, hd, rfl⟩ := hc
    exact isDigit_digitChar (Nat.digits_lt_base (by norm_num) hd)

theorem natToDigitChars_ne_nil (n : Nat) : natToDigitChars n ≠ [] := by
  by_cases h : n = 0
  · subst h; decide
  · simp only [natToDigitChars, if_neg h]
    simp [Nat.digits_ne_nil_iff_ne_zero, h]

/-! ## Shape of a marker match -/

/-- Pointwise case-insensitive comparison of an input slice against the
lowercase pattern literal. -/
def matchesHeader : List Char → List Char → Bool
  | [], [] => true
  | h :: hs, c :: cs => (c.toLower = h : Bool) && matchesHeader hs cs
  | _, _ => false

/-- The full text of one marker occurrence with header characters `cs`
(case-variant of `Se Sida `) and digit characters `ds`. -/
def markerCore (cs ds : List Char) : List Char := '[' :: (cs ++ ds ++ [']'])

theorem matchesHeader_cons {h c : Char} {hs cs : List Char} :
    matchesHeader (h :: hs) (c :: cs) = true ↔
      c.toLower = h ∧ matchesHeader hs cs = true := by
  simp [matchesHeader]

theorem eatHeader_eq_some {hs : List Char} :
    ∀ {s r : List Char}, eatHeader hs s = some r ↔
      ∃ cs, matchesHeader hs cs = true ∧ s = cs ++ r := by
  induction hs with
  | nil =>
    intro s r
    simp only [eatHeader, Option.some.injEq]
    constructor
    · intro h
      exact ⟨[], rfl, by simpa using h⟩
    · rintro ⟨cs, hcs, rfl⟩
      cases cs with
      | nil => simp
      | cons c cs' => simp [matchesHeader] at hcs
  | cons h hs ih =>
    intro s r
    cases s with
    | nil =>
      simp only [eatHeader]
      constructor
      · intro hh; cases hh
      · rintro ⟨cs, hcs, hseq⟩
        cases cs with
        | nil => simp [matchesHeader] at hcs
        | cons c cs' => cases hseq
    | cons c s' =>
      simp only [eatHeader]
      by_cases hc : c.toLower = h
      · rw [if_pos hc, ih]
        constructor
        · rintro ⟨cs, hcs, rfl⟩
          exact ⟨c :: cs, matchesHeader_cons.mpr ⟨hc, hcs⟩, rfl⟩
        · rintro ⟨cs, hcs, hseq⟩
          cases cs with
          | nil => simp [matchesHeader] at hcs
          | cons c₀ cs' =>
            obtain ⟨hc₀, hrest⟩ := List.cons_eq_cons.mp hseq
            subst hc₀
            exact ⟨cs', (matchesHeader_cons.mp hcs).2, hrest⟩
      · rw [if_neg hc]
        constructor
        · intro hh; cases hh
        · rintro ⟨cs, hcs, hseq⟩
          cases cs with
          | nil => simp [matchesHeader] at hcs
          | cons c₀ cs' =>
            obtain ⟨hc₀, _⟩ := List.cons_eq_cons.mp hseq
            subst hc₀
            exact absurd (matchesHeader_cons.mp hcs).1 hc

theorem takeWhile_digits_append {ds : List Char} (r : List Char)
    (hds : ∀ c ∈ ds, c.isDigit = true) :
    (ds ++ ']' :: r).takeWhile Char.isDigit = ds ∧
    (ds ++ ']' :: r).dropWhile Char.isDigit = ']' :: r := by
  induction ds with
  | nil => constructor <;> simp [List.takeWhile, List.dropWhile]
  | cons d ds ih =>
    have hd : d.isDigit = true := hds d (List.mem_cons_self _ _)
    have ih' := ih (fun c hc => hds c (List.mem_cons_of_mem _ hc))
    constructor
    · simp [List.takeWhile_cons, hd, ih'.1]
    · simp [List.dropWhile_cons, hd, ih'.2]

/-- A marker match succeeds exactly on texts of shape
`[<header-case-variant><digits>]<rest>`. -/
theorem matchMarker_some_iff {s : List Char} {n : Nat} {r : List Char} :
    matchMarker s = some (n, r) ↔
      ∃ cs ds, matchesHeader header cs = true ∧ ds ≠ [] ∧
        (∀ c ∈ ds, c.isDigit = true) ∧ n = digitsToNat ds ∧
        s = markerCore cs ds ++ r := by
  constructor
  · intro h
    cases s with
    | nil => cases h
    | cons c t =>
      by_cases hc : c = '['
      · subst hc
        cases he : eatHeader header t with
        | none => simp [matchMarker, he] at h
        | some t2 =>
          obtain ⟨cs, hcs, rfl⟩ := eatHeader_eq_some.mp he
          cases hdw : t2.dropWhile Char.isDigit with
          | nil => simp [matchMarker, he, hdw] at h
          | cons c4 t4 =>
            by_cases hc4 : c4 = ']'
            · subst hc4
              by_cases hemp : (t2.takeWhile Char.isDigit).isEmpty = true
              · simp [matchMarker, he, hdw, hemp] at h
              · have h' : digitsToNat (t2.takeWhile Char.isDigit) = n ∧ t4 = r := by
                  simpa [matchMarker, he, hdw, hemp] using h
                obtain ⟨hn, hr⟩ := h'
                refine ⟨cs, t2.takeWhile Char.isDigit, hcs, ?_, ?_, hn.symm, ?_⟩
                · intro hnil
                  rw [hnil] at hemp
                  exact hemp rfl
                · intro c hcmem
                  exact List.mem_takeWhile_imp hcmem
                · subst hr
                  have ht2 : t2.takeWhile Char.isDigit ++ t2.dropWhile Char.isDigit = t2 :=
                    List.takeWhile_append_dropWhile _ _
                  rw [markerCore]
                  simp only [List.cons_append, List.cons.injEq, true_and,
                    List.append_assoc, List.nil_append]
                  rw [← hdw, ht2]
            · simp [matchMarker, he, hdw, hc4] at h
      · simp [matchMarker, hc] at h
  · rintro ⟨cs, ds, hcs, hne, hdig, rfl, rfl⟩
    have he : eatHeader header (cs ++ (ds ++ ']' :: r)) = some (ds ++ ']' :: r) :=
      eatHeader_eq_some.mpr ⟨cs, hcs, rfl⟩
    have htd := takeWhile_digits_append r hdig
    have hsh : markerCore cs ds ++ r = '[' :: (cs ++ (ds ++ ']' :: r)) := by
      simp [markerCore, List.append_assoc]
    rw [hsh]
    have hemp : ¬ ((ds ++ ']' :: r).takeWhile Char.isDigit).isEmpty = true := by
      rw [htd.1]
      cases ds with
      | nil => exact absurd rfl hne
      | cons d ds' => simp
    simp [matchMarker, he, htd.1, htd.2, hemp, hne]

/-! ## Localization: a match never starts strictly inside another text and
ends inside a following marker, because a matched region contains `[` only
at its first position. -/

theorem matchesHeader_mem {hs : List Char} :
    ∀ {cs : List Char}, matchesHeader hs cs = true →
      ∀ c ∈ cs, ∃ h ∈ hs, c.toLower = h := by
  induction hs with
  | nil =>
    intro cs hcs c hc
    cases cs with
    | nil => cases hc
    | cons c' cs' => simp [matchesHeader] at hcs
  | cons h hs ih =>
    intro cs hcs c hc
    cases cs with
    | nil => simp [matchesHeader] at hcs
    | cons c' cs' =>
      obtain ⟨hc', hrest⟩ := matchesHeader_cons.mp hcs
      rcases List.mem_cons.mp hc with rfl | hmem
      · exact ⟨h, List.mem_cons_self _ _, hc'⟩
      · obtain ⟨h₀, hh₀, hcl⟩ := ih hrest c hmem
        exact ⟨h₀, List.mem_cons_of_mem _ hh₀, hcl⟩

theorem markerCore_tail_no_lbracket {cs ds : List Char}
    (hcs : matchesHeader header cs = true)
    (hds : ∀ c ∈ ds, c.isDigit = true) :
    ∀ c ∈ cs ++ ds ++ [']'], c ≠ '[' := by
  intro c hc hceq
  subst hceq
  rcases List.mem_append.mp hc with hc' | hlast
  · rcases List.mem_append.mp hc' with hcss | hdss
    · obtain ⟨h, hh, hcl⟩ := matchesHeader_mem hcs _ hcss
      have hlow : ('[' : Char).toLower = '[' := by decide
      rw [hlow] at hcl
      subst hcl
      revert hh
      decide
    · exact absurd (hds _ hdss) (by decide)
  · exact absurd (List.mem_singleton.mp hlast) (by decide)

theorem matchMarker_append_lbracket {x z : List Char} {n : Nat} {r : List Char}
    (hx : x ≠ []) (h : matchMarker (x ++ '[' :: z) = some (n, r)) :
    ∃ r₀, matchMarker x = some (n, r₀) ∧ r = r₀ ++ '[' :: z := by
  obtain ⟨cs, ds, hcs, hne, hdig, hn, heq⟩ := matchMarker_some_iff.mp h
  set m : List Char := markerCore cs ds with hm
  have hxlen : 1 ≤ x.length := by
    cases x with
    | nil => exact absurd rfl hx
    | cons a as => simp
  by_cases hlen : m.length ≤ x.length
  · -- the whole match sits inside x
    have htake : x.take m.length = m := by
      have h1 : (x ++ '[' :: z).take m.length = x.take m.length := by
        rw [List.take_append_eq_append_take]
        have : m.length - x.length = 0 := Nat.sub_eq_zero_of_le hlen
        simp [this]
      have h2 : (m ++ r).take m.length = m := List.take_left _ _
      rw [heq, h2] at h1
      exact h1.symm
    have hxdecomp : x = m ++ x.drop m.length := by
      conv_lhs => rw [← List.take_append_drop m.length x]
      rw [htake]
    refine ⟨x.drop m.length, ?_, ?_⟩
    · exact matchMarker_some_iff.mpr ⟨cs, ds, hcs, hne, hdig, hn, hxdecomp⟩
    · have : m ++ r = m ++ (x.drop m.length ++ '[' :: z) := by
        rw [← heq, ← List.append_assoc, ← hxdecomp]
      exact List.append_cancel_left this
  · -- the match would extend past x and contain the `[` of z internally
    exfalso
    push_neg at hlen
    have hdcast : m.drop x.length ++ r = '[' :: z := by
      have h1 : (x ++ '[' :: z).drop x.length = '[' :: z := List.drop_left _ _
      rw [heq] at h1
      rw [List.drop_append_eq_append_drop] at h1
      have : x.length - m.length = 0 := Nat.sub_eq_zero_of_le (Nat.le_of_lt hlen)
      simpa [this] using h1
    have hdne : m.drop x.length ≠ [] := by
      have : (m.drop x.length).length = m.length - x.length := List.length_drop _ _
      intro hcon
      rw [hcon] at this
      simp at this
      omega
    obtain ⟨a, d', hd'⟩ := List.exists_cons_of_ne_nil hdne
    have ha : a = '[' := by
      rw [hd'] at hdcast
      simpa using (List.cons_eq_cons.mp hdcast).1
    have hmem : a ∈ cs ++ ds ++ [']'] := by
      have h1 : a ∈ m.drop x.length := by rw [hd']; exact List.mem_cons_self _ _
      have h2 : m.drop x.length = (m.drop 1).drop (x.length - 1) := by
        rw [List.drop_drop]
        congr 1
        omega
      have h3 : m.drop 1 = cs ++ ds ++ [']'] := by
        simp [hm, markerCore]
      rw [h2, h3] at h1
      exact List.drop_subset _ _ h1
    exact markerCore_tail_no_lbracket hcs hdig a hmem ha

theorem matchMarker_rest_length {s : List Char} {n : Nat} {r : List Char}
    (h : matchMarker s = some (n, r)) : r.length < s.length := by
  obtain ⟨cs, ds, _, _, _, _, heq⟩ := matchMarker_some_iff.mp h
  rw [heq]
  simp [markerCore]
  omega

/-! ## Fuel irrelevance and equation lemmas -/

theorem parseRefsF_fuel : ∀ (f g : Nat) (s : List Char),
    s.length ≤ f → s.length ≤ g → parseRefsF f s = parseRefsF g s := by
  intro f
  induction f with
  | zero =>
    intro g s hf _
    cases s with
    | nil => cases g <;> rfl
    | cons c rest => simp at hf
  | succ f ih =>
    intro g s hf hg
    cases s with
    | nil => cases g <;> rfl
    | cons c rest =>
      cases g with
      | zero => simp at hg
      | succ g' =>
        simp only [parseRefsF]
        cases hm : matchMarker (c :: rest) with
        | none =>
          exact ih g' rest (by simpa using Nat.lt_succ_iff.mp (Nat.lt_of_lt_of_le (Nat.lt_succ_self _) hf))
            (by simpa using Nat.lt_succ_iff.mp (Nat.lt_of_lt_of_le (Nat.lt_succ_self _) hg))
        | some p =>
          obtain ⟨n, r⟩ := p
          have hr : r.length < rest.length + 1 := matchMarker_rest_length hm
          simp only
          rw [ih g' r (by simp at hf; omega) (by simp at hg; omega)]

theorem scanAuxF_fuel : ∀ (f g : Nat) (acc s : List Char),
    s.length ≤ f → s.length ≤ g → scanAuxF f acc s = scanAuxF g acc s := by
  intro f
  induction f with
  | zero =>
    intro g acc s hf _
    cases s with
    | nil => cases g <;> rfl
    | cons c rest => simp at hf
  | succ f ih =>
    intro g acc s hf hg
    cases s with
    | nil => cases g <;> rfl
    | cons c rest =>
      cases g with
      | zero => simp at hg
      | succ g' =>
        simp only [scanAuxF]
        cases hm : matchMarker (c :: rest) with
        | none =>
          exact ih g' (c :: acc) rest (by simp at hf; omega) (by simp at hg; omega)
        | some p =>
          obtain ⟨n, r⟩ := p
          have hr : r.length < rest.length + 1 := matchMarker_rest_length hm
          simp only
          rw [ih g' [] r (by simp at hf; omega) (by simp at hg; omega)]

theorem parseP_nil : parsePageReferences [] = [] := rfl

theorem parseP_cons_some {c : Char} {rest : List Char} {n : Nat} {r : List Char}
    (h : matchMarker (c :: rest) = some (n, r)) :
    parsePageReferences (c :: rest) = n :: parsePageReferences r := by
  have hr : r.length < rest.length + 1 := matchMarker_rest_length h
  unfold parsePageReferences
  simp only [List.length_cons, parseRefsF, h]
  rw [parseRefsF_fuel rest.length r.length r (by omega) (le_refl _)]

theorem parseP_cons_none {c : Char} {rest : List Char}
    (h : matchMarker (c :: rest) = none) :
    parsePageReferences (c :: rest) = parsePageReferences rest := by
  unfold parsePageReferences
  simp only [List.length_cons, parseRefsF, h]

/-- `scanA acc s`: the split scan with pending plain accumulator `acc`. -/
def scanA (acc s : List Char) : List Seg := scanAuxF s.length acc s

theorem formatMessageContent_eq_scanA (s : List Char) :
    formatMessageContent s = scanA [] s := rfl

theorem scanA_nil (acc : List Char) : scanA acc [] = [Seg.text acc.reverse] := rfl

theorem scanA_cons_some {c : Char} {rest : List Char} {n : Nat} {r : List Char}
    (acc : List Char) (h : matchMarker (c :: rest) = some (n, r)) :
    scanA acc (c :: rest) = Seg.text acc.reverse :: Seg.ref n :: scanA [] r := by
  have hr : r.length < rest.length + 1 := matchMarker_rest_length h
  unfold scanA
  simp only [List.length_cons, scanAuxF, h]
  rw [scanAuxF_fuel rest.length r.length [] r (by omega) (le_refl _)]

theorem scanA_cons_none {c : Char} {rest : List Char}
    (acc : List Char) (h : matchMarker (c :: rest) = none) :
    scanA acc (c :: rest) = scanA (c :: acc) rest := by
  unfold scanA
  simp only [List.length_cons, scanAuxF, h]

/-! ## Texts without any marker occurrence -/

/-- `t` contains no marker occurrence: the pattern fails at every position. -/
def noMarker (t : List Char) : Prop := ∀ u, u <:+ t → matchMarker u = none

theorem noMarker_nil : noMarker [] := by
  intro u hu
  rw [List.suffix_nil.mp hu]
  rfl

theorem noMarker_cons_iff {c : Char} {t : List Char} :
    noMarker (c :: t) ↔ matchMarker (c :: t) = none ∧ noMarker t := by
  constructor
  · intro h
    exact ⟨h _ (List.suffix_refl _), fun u hu => h u (hu.trans (List.suffix_cons c t))⟩
  · rintro ⟨h1, h2⟩ u hu
    rcases List.suffix_cons_iff.mp hu with rfl | hu'
    · exact h1
    · exact h2 u hu'

/-- A text yields no page references exactly when no position matches. -/
theorem parseP_eq_nil_iff_noMarker {t : List Char} :
    parsePageReferences t = [] ↔ noMarker t := by
  induction t with
  | nil => simpa [parseP_nil] using noMarker_nil
  | cons c rest ih =>
    cases hm : matchMarker (c :: rest) with
    | some p =>
      obtain ⟨n, r⟩ := p
      rw [parseP_cons_some hm, noMarker_cons_iff]
      simp [hm]
    | none =>
      rw [parseP_cons_none hm, noMarker_cons_iff, ih]
      simp [hm]

/-! ## One well-formed marker occurrence -/

/-- A well-formed page-reference marker: a case variant `hdr` of the header
literal plus a nonempty digit run `digs`.  Its text is `[<hdr><digs>]` and
its page number is the numeric value of `digs`. -/
structure PageMarker where
  hdr : List Char
  digs : List Char
deriving DecidableEq

/-- Well-formedness of a marker: the header is a case variant of `Se Sida `
and the digit run is a nonempty string of ASCII digits. -/
def PageMarker.wf (m : PageMarker) : Prop :=
  matchesHeader header m.hdr = true ∧ m.digs ≠ [] ∧ ∀ c ∈ m.digs, c.isDigit = true

instance (m : PageMarker) : Decidable m.wf :=
  inferInstanceAs (Decidable
    (matchesHeader header m.hdr = true ∧ m.digs ≠ [] ∧ ∀ c ∈ m.digs, c.isDigit = true))

/-- The literal text of a marker. -/
def PageMarker.text (m : PageMarker) : List Char := markerCore m.hdr m.digs

/-- The page number denoted by a marker (`parseInt` of its digits). -/
def PageMarker.num (m : PageMarker) : Nat := digitsToNat m.digs

/-- The canonical-case marker `[Se Sida N]` for a page number. -/
def canonicalMarker (n : Nat) : PageMarker :=
  ⟨['S', 'e', ' ', 'S', 'i', 'd', 'a', ' '], natToDigitChars n⟩

theorem canonicalMarker_wf (n : Nat) : (canonicalMarker n).wf :=
  ⟨(by decide :
      matchesHeader header ['S', 'e', ' ', 'S', 'i', 'd', 'a', ' '] = true),
    natToDigitChars_ne_nil n, natToDigitChars_isDigit n⟩

theorem canonicalMarker_num (n : Nat) : (canonicalMarker n).num = n :=
  digitsToNat_natToDigitChars n

theorem canonicalMarker_text (n : Nat) :
    (canonicalMarker n).text = str "[Se Sida " ++ natToDigitChars n ++ str "]" := by
  have h1 : str "[Se Sida " = '[' :: ['S', 'e', ' ', 'S', 'i', 'd', 'a', ' '] := by decide
  have h2 : str "]" = [']'] := by decide
  simp [PageMarker.text, markerCore, canonicalMarker, h1, h2, List.append_assoc]

theorem matchMarker_markerText {m : PageMarker} (hm : m.wf) (rest : List Char) :
    matchMarker (m.text ++ rest) = some (m.num, rest) :=
  matchMarker_some_iff.mpr ⟨m.hdr, m.digs, hm.1, hm.2.1, hm.2.2, rfl, rfl⟩

theorem markerText_cons (m : PageMarker) :
    m.text = '[' :: (m.hdr ++ m.digs ++ [']']) := rfl

/-! ## Step lemmas: scanning a plain segment followed by a marker -/

theorem matchMarker_plain_before_marker {t : List Char} (ht : noMarker t)
    {m : PageMarker} (rest : List Char) {c : Char} {t' : List Char}
    (hct : c :: t' = t) : matchMarker ((c :: t') ++ (m.text ++ rest)) = none := by
  cases hmm : matchMarker ((c :: t') ++ (m.text ++ rest)) with
  | none => rfl
  | some p =>
    obtain ⟨n, r⟩ := p
    exfalso
    have hshape : (c :: t') ++ (m.text ++ rest) =
        (c :: t') ++ '[' :: (m.hdr ++ m.digs ++ [']'] ++ rest) := by
      rw [markerText_cons]
      simp [List.append_assoc]
    rw [hshape] at hmm
    obtain ⟨r₀, hr₀, _⟩ := matchMarker_append_lbracket (by simp) hmm
    have := ht (c :: t') (hct ▸ List.suffix_refl t)
    rw [this] at hr₀
    cases hr₀

theorem parseP_plain_marker {t : List Char} (ht : noMarker t)
    {m : PageMarker} (hm : m.wf) (rest : List Char) :
    parsePageReferences (t ++ m.text ++ rest) = m.num :: parsePageReferences rest := by
  induction t with
  | nil =>
    rw [List.nil_append]
    have h := matchMarker_markerText hm rest
    rw [markerText_cons] at h ⊢
    rw [List.cons_append]
    rw [List.cons_append] at h
    exact parseP_cons_some h
  | cons c t' ih =>
    have hnone : matchMarker ((c :: t') ++ (m.text ++ rest)) = none :=
      matchMarker_plain_before_marker ht rest rfl
    have ht' : noMarker t' := (noMarker_cons_iff.mp ht).2
    calc parsePageReferences ((c :: t') ++ m.text ++ rest)
        = parsePageReferences (c :: (t' ++ m.text ++ rest)) := by
          simp [List.append_assoc]
      _ = parsePageReferences (t' ++ m.text ++ rest) := by
          apply parseP_cons_none
          have : c :: (t' ++ m.text ++ rest) = (c :: t') ++ (m.text ++ rest) := by
            simp [List.append_assoc]
          rw [this]
          exact hnone
      _ = m.num :: parsePageReferences rest := ih ht'

theorem scanA_plain_marker {t : List Char} (ht : noMarker t)
    {m : PageMarker} (hm : m.wf) (rest acc : List Char) :
    scanA acc (t ++ m.text ++ rest) =
      Seg.text (acc.reverse ++ t) :: Seg.ref m.num :: scanA [] rest := by
  induction t generalizing acc with
  | nil =>
    rw [List.nil_append, List.append_nil]
    have h := matchMarker_markerText hm rest
    rw [markerText_cons] at h ⊢
    rw [List.cons_append]
    rw [List.cons_append] at h
    exact scanA_cons_some acc h
  | cons c t' ih =>
    have hnone : matchMarker ((c :: t') ++ (m.text ++ rest)) = none :=
      matchMarker_plain_before_marker ht rest rfl
    have ht' : noMarker t' := (noMarker_cons_iff.mp ht).2
    calc scanA acc ((c :: t') ++ m.text ++ rest)
        = scanA acc (c :: (t' ++ m.text ++ rest)) := by
          simp [List.append_assoc]
      _ = scanA (c :: acc) (t' ++ m.text ++ rest) := by
          apply scanA_cons_none
          have : c :: (t' ++ m.text ++ rest) = (c :: t') ++ (m.text ++ rest) := by
            simp [List.append_assoc]
          rw [this]
          exact hnone
      _ = Seg.text ((c :: acc).reverse ++ t') :: Seg.ref m.num :: scanA [] rest := ih ht' _
      _ = Seg.text (acc.reverse ++ c :: t') :: Seg.ref m.num :: scanA [] rest := by
          simp

theorem scanA_plain_tail {t : List Char} (ht : noMarker t) :
    ∀ acc, scanA acc t = [Seg.text (acc.reverse ++ t)] := by
  induction t with
  | nil => intro acc; simp [scanA_nil]
  | cons c t' ih =>
    intro acc
    have hnone : matchMarker (c :: t') = none := (noMarker_cons_iff.mp ht).1
    rw [scanA_cons_none acc hnone, ih (noMarker_cons_iff.mp ht).2]
    simp

/-! ## Assembling a text from plain segments and markers -/

/-- Build a text from alternating plain segments and markers, ending with a
final plain segment. -/
def assemble : List (List Char × PageMarker) → List Char → List Char
  | [], tl => tl
  | (t, m) :: ps, tl => t ++ m.text ++ assemble ps tl

/-- Concatenation of the plain-text spans of a render list, marker buttons
ignored. -/
def plainConcat (l : List Seg) : List Char :=
  (l.filterMap fun sg => match sg with
    | Seg.text t => some t
    | Seg.ref _ => none).flatten

theorem plainConcat_cons_text (t : List Char) (l : List Seg) :
    plainConcat (Seg.text t :: l) = t ++ plainConcat l := by
  simp [plainConcat]

theorem plainConcat_cons_ref (n : Nat) (l : List Seg) :
    plainConcat (Seg.ref n :: l) = plainConcat l := by
  simp [plainConcat]

theorem parseP_assemble (ps : List (List Char × PageMarker)) (tl : List Char)
    (hw : ∀ p ∈ ps, p.2.wf) (hp : ∀ p ∈ ps, noMarker p.1) (htl : noMarker tl) :
    parsePageReferences (assemble ps tl) = ps.map fun p => p.2.num := by
  induction ps with
  | nil => simpa [assemble] using parseP_eq_nil_iff_noMarker.mpr htl
  | cons p ps ih =>
    obtain ⟨t, m⟩ := p
    have h1 := parseP_plain_marker (hp _ (List.mem_cons_self _ _))
      (hw _ (List.mem_cons_self _ _)) (assemble ps tl)
    simp only [assemble, h1, List.map_cons, List.cons.injEq, true_and]
    exact ih (fun q hq => hw q (List.mem_cons_of_mem _ hq))
      (fun q hq => hp q (List.mem_cons_of_mem _ hq))

theorem scanA_assemble (ps : List (List Char × PageMarker)) (tl : List Char)
    (hw : ∀ p ∈ ps, p.2.wf) (hp : ∀ p ∈ ps, noMarker p.1) (htl : noMarker tl) :
    scanA [] (assemble ps tl) =
      (ps.map fun p => [Seg.text p.1, Seg.ref p.2.num]).flatten ++ [Seg.text tl] := by
  induction ps with
  | nil => simpa [assemble] using scanA_plain_tail htl []
  | cons p ps ih =>
    obtain ⟨t, m⟩ := p
    have ht : noMarker t := hp (t, m) (List.mem_cons_self _ _)
    have hm' : m.wf := hw (t, m) (List.mem_cons_self _ _)
    have h1 := scanA_plain_marker ht hm' (assemble ps tl) []
    have ih' := ih (fun q hq => hw q (List.mem_cons_of_mem _ hq))
      (fun q hq => hp q (List.mem_cons_of_mem _ hq))
    simp only [assemble]
    rw [h1, ih']
    simp

theorem plainConcat_assembled (ps : List (List Char × PageMarker)) (tl : List Char) :
    plainConcat ((ps.map fun p => [Seg.text p.1, Seg.ref p.2.num]).flatten ++ [Seg.text tl]) =
      (ps.map Prod.fst).flatten ++ tl := by
  induction ps with
  | nil => simp [plainConcat]
  | cons p ps ih =>
    obtain ⟨t, m⟩ := p
    have hsplit : (List.map (fun p => [Seg.text p.1, Seg.ref p.2.num]) ((t, m) :: ps)).flatten
        ++ [Seg.text tl]
        = Seg.text t :: Seg.ref m.num ::
          ((List.map (fun p => [Seg.text p.1, Seg.ref p.2.num]) ps).flatten ++ [Seg.text tl]) := by
      simp
    rw [hsplit, plainConcat_cons_text, plainConcat_cons_ref, ih]
    simp

/-- C1: Marker round-trip.  For any text assembled from zero or more
well-formed `[Se Sida N]` markers (in any letter case, with arbitrary digit
runs) interspersed with arbitrary marker-free segments:
`parsePageReferences` returns exactly the marker page numbers in
left-to-right order, duplicates included; `formatMessageContent` renders
exactly the alternating plain spans and marker buttons (keeping zero-length
spans between adjacent markers, and malformed markers staying inside plain
spans); and concatenating the plain spans reconstructs the original text with
all markers removed.  The `ps = []` case yields the single span equal to the
whole input. -/
theorem C1_marker_roundtrip (ps : List (List Char × PageMarker)) (tl : List Char)
    (hw : ∀ p ∈ ps, p.2.wf)
    (hp : ∀ p ∈ ps, parsePageReferences p.1 = [])
    (htl : parsePageReferences tl = []) :
    parsePageReferences (assemble ps tl) = (ps.map fun p => p.2.num) ∧
    formatMessageContent (assemble ps tl) =
      (ps.map fun p => [Seg.text p.1, Seg.ref p.2.num]).flatten ++ [Seg.text tl] ∧
    plainConcat (formatMessageContent (assemble ps tl)) = (ps.map Prod.fst).flatten ++ tl := by
  have hp' : ∀ p ∈ ps, noMarker p.1 := fun p hq => parseP_eq_nil_iff_noMarker.mp (hp p hq)
  have htl' : noMarker tl := parseP_eq_nil_iff_noMarker.mp htl
  have h2 : formatMessageContent (assemble ps tl) =
      (ps.map fun p => [Seg.text p.1, Seg.ref p.2.num]).flatten ++ [Seg.text tl] := by
    rw [formatMessageContent_eq_scanA]
    exact scanA_assemble ps tl hw hp' htl'
  refine ⟨parseP_assemble ps tl hw hp' htl', h2, ?_⟩
  rw [h2]
  exact plainConcat_assembled ps tl

/-- Concrete decomposition for the C1 witness: a duplicate page number, a
case-variant marker with leading zeros, a malformed marker (`[Se Sida ]`,
no digits) left inside a plain span, and a zero-length span between two
adjacent markers. -/
def ps₀ : List (List Char × PageMarker) :=
  [(str "Svar [Se Sida ] fel: ", ⟨['S', 'e', ' ', 'S', 'i', 'd', 'a', ' '], ['3']⟩),
   ([], ⟨['s', 'E', ' ', 's', 'I', 'd', 'A', ' '], ['0', '0', '7']⟩),
   (str " och ", ⟨['S', 'e', ' ', 'S', 'i', 'd', 'a', ' '], ['3']⟩)]

/-- Final plain segment for the C1 witness: an unterminated marker prefix. -/
def tl₀ : List Char := str " slut [Se Sida 9"

theorem C1_marker_roundtrip_witness :
    (∀ p ∈ ps₀, p.2.wf) ∧ (∀ p ∈ ps₀, parsePageReferences p.1 = []) ∧
    parsePageReferences tl₀ = [] ∧
    parsePageReferences (assemble ps₀ tl₀) = [3, 7, 3] ∧
    plainConcat (formatMessageContent (assemble ps₀ tl₀)) =
      str "Svar [Se Sida ] fel:  och  slut [Se Sida 9" := by
  have h := C1_marker_roundtrip ps₀ tl₀ (by decide) (by decide) (by decide)
  exact ⟨by decide, by decide, by decide,
    h.1.trans (by decide), h.2.2.trans (by decide)⟩

/-! ## Conversation model (`ChatInterface.tsx` and the chat route)

`Msg` is the `Message` type of `lib/types.ts` (`role: 'user' | 'model'`,
`content`, optional `citations`).  `sendMessage` is the state transition of
the `sendMessage` handler in `ChatInterface.tsx` for one sequential call that
passes the blank-input guard check: it appends the user turn, then on a
successful fetch appends the assistant turn and computes the page-reference
signal sent to `onPageReference`, and on any failure (non-ok response,
network or JSON error) appends the fixed fallback assistant turn and emits no
signal.  The `loading` reentrancy flag is not modelled: calls are sequential
(the flag is false at the start of every modelled call). -/

/-- `'user' | 'model'` of `lib/types.ts`. -/
inductive Role where
  | user
  | model
deriving DecidableEq

/-- `Citation` of `lib/types.ts`. -/
structure Citation where
  title : List Char
  text : List Char
  uri : Option (List Char)
deriving DecidableEq

/-- `Message` of `lib/types.ts`. -/
structure Msg where
  role : Role
  content : List Char
  citations : Option (List Citation)
deriving DecidableEq

/-- The whitespace set of JavaScript `String.prototype.trim` (ASCII
whitespace plus the common Unicode space characters used by V8). -/
def isJsSpace (c : Char) : Bool :=
  c = ' ' || c = '\t' || c = '\n' || c = '\r' || c = '\x0b' || c = '\x0c' ||
  c = '\u00a0' || c = '\ufeff' || c = '\u2028' || c = '\u2029'

/-- `input.trim()`. -/
def jsTrim (s : List Char) : List Char :=
  ((s.dropWhile isJsSpace).reverse.dropWhile isJsSpace).reverse

/-- The fallback assistant text appended on a failed call
(`Ett fel uppstod. Försök igen.`). -/
def fallbackText : List Char := str "Ett fel uppstod. Försök igen."

/-- Result of the `/api/chat` fetch as seen by `sendMessage`: a parsed
success body, or any failure (non-ok status, network or JSON error). -/
inductive FetchOutcome where
  | ok (answer : List Char) (citations : List Citation)
  | fail

/-- One sequential `sendMessage` call on message state `st` with the given
input and fetch outcome; `hasHandler` records whether an `onPageReference`
callback was passed as a prop.  Returns the new message list and the page
number passed to `onPageReference` (if any). -/
def sendMessage (st : List Msg) (input : List Char) (oc : FetchOutcome)
    (hasHandler : Bool) : List Msg × Option Nat :=
  if jsTrim input = [] then (st, none)
  else
    match oc with
    | FetchOutcome.ok ans cits =>
      let refs := parsePageReferences ans
      ((st ++ [⟨Role.user, input, none⟩]) ++ [⟨Role.model, ans, some cits⟩],
        if decide (0 < refs.length) && hasHandler then refs.head? else none)
    | FetchOutcome.fail =>
      ((st ++ [⟨Role.user, input, none⟩]) ++ [⟨Role.model, fallbackText, none⟩], none)

/-- C2 counterexample: on a failed call the code appends two entries (the
user turn plus the fallback assistant turn), not one: starting from an empty
history, a failed call yields history length 2, refuting the claimed
increase of exactly 1. -/
theorem C2_failed_appends_two :
    (sendMessage [] (str "hej") FetchOutcome.fail true).1.length = 2 ∧
    ¬ (sendMessage [] (str "hej") FetchOutcome.fail true).1.length =
        ([] : List Msg).length + 1 := by
  constructor
  · decide
  · decide

/-- C2 (amended): every `sendMessage` call with non-blank input appends
exactly two entries — the user turn, then either the real assistant turn
(successful call) or the fixed fallback assistant turn (failed call) — to
the same single history, and never mutates existing entries (the old history
is an unchanged prefix of the new one); a blank input leaves the history
unchanged. -/
theorem C2_history_append_only (st : List Msg) (input : List Char)
    (oc : FetchOutcome) (hh : Bool) (hin : jsTrim input ≠ []) :
    (sendMessage st input oc hh).1.length = st.length + 2 ∧
    (∃ a : Msg, a.role = Role.model ∧
      (sendMessage st input oc hh).1 = st ++ [⟨Role.user, input, none⟩, a]) ∧
    (∀ i : Nat, i < st.length → (sendMessage st input oc hh).1[i]? = st[i]?) := by
  have key : ∃ a : Msg, a.role = Role.model ∧
      (sendMessage st input oc hh).1 = st ++ [⟨Role.user, input, none⟩, a] := by
    cases oc with
    | ok ans cits =>
      exact ⟨⟨Role.model, ans, some cits⟩, rfl, by simp [sendMessage, hin]⟩
    | fail =>
      exact ⟨⟨Role.model, fallbackText, none⟩, rfl, by simp [sendMessage, hin]⟩
  obtain ⟨a, ha, heq⟩ := key
  refine ⟨by rw [heq]; simp, ⟨a, ha, heq⟩, ?_⟩
  intro i hi
  rw [heq]
  exact List.getElem?_append_left hi

theorem C2_history_append_only_witness :
    jsTrim (str "hej") ≠ [] ∧
    (sendMessage [Msg.mk Role.user (str "a") none] (str "hej")
        FetchOutcome.fail true).1.length = 3 := by
  refine ⟨by decide, ?_⟩
  have h := (C2_history_append_only [Msg.mk Role.user (str "a") none]
    (str "hej") FetchOutcome.fail true (by decide)).1
  simpa using h

/-! ## Backend-facing history construction (chat route) -/

/-- One part of a backend request content entry: a `fileData` document
attachment or plain text. -/
inductive ReqPart where
  | fileData (mimeType : List Char) (fileUri : List Char)
  | text (s : List Char)
deriving DecidableEq

/-- One entry of the `startChat` history sent to the backend. -/
structure ReqEntry where
  role : Role
  parts : List ReqPart
deriving DecidableEq

/-- The MIME type attached to every document reference. -/
def appPdf : List Char := str "application/pdf"

/-- How the chat route represents one stored message to the backend: user
turns get the `fileData` document reference plus their text; other turns get
their text only. -/
def toBackendEntry (fileUri : List Char) (m : Msg) : ReqEntry :=
  { role := m.role
    parts :=
      if m.role = Role.user then
        [ReqPart.fileData appPdf fileUri, ReqPart.text m.content]
      else [ReqPart.text m.content] }

/-- The backend-facing history built by the chat route from the request
history. -/
def buildChatHistory (fileUri : List Char) (history : List Msg) : List ReqEntry :=
  history.map (toBackendEntry fileUri)

/-- The parts of the new user message sent with `chat.sendMessage`: the
document reference plus the message text. -/
def newMessageParts (fileUri message : List Char) : List ReqPart :=
  [ReqPart.fileData appPdf fileUri, ReqPart.text message]

/-- C3: Re-grounding.  In the backend-facing history, every prior user turn
carries the `fileData` attachment with the conversation file URI (not only
the first or most recent), every prior assistant turn is plain text only
(no `fileData` part at all), and the new user message itself is also paired
with the document attachment. -/
theorem C3_regrounding (fileUri message : List Char) (history : List Msg) :
    (∀ m ∈ history, m.role = Role.user →
      (toBackendEntry fileUri m).parts =
        [ReqPart.fileData appPdf fileUri, ReqPart.text m.content]) ∧
    (∀ m ∈ history, m.role = Role.model →
      (toBackendEntry fileUri m).parts = [ReqPart.text m.content] ∧
      ∀ mt u, ReqPart.fileData mt u ∉ (toBackendEntry fileUri m).parts) ∧
    (∀ e ∈ buildChatHistory fileUri history, ∃ m ∈ history,
      e = toBackendEntry fileUri m ∧ e.role = m.role) ∧
    ReqPart.fileData appPdf fileUri ∈ newMessageParts fileUri message := by
  refine ⟨?_, ?_, ?_, by simp [newMessageParts]⟩
  · intro m _ hrole
    simp [toBackendEntry, hrole]
  · intro m _ hrole
    have hne : ¬ m.role = Role.user := by rw [hrole]; intro hc; cases hc
    constructor
    · simp [toBackendEntry, hne]
    · intro mt u hmem
      simp [toBackendEntry, hne] at hmem
  · intro e he
    obtain ⟨m, hm, rfl⟩ := List.mem_map.mp he
    exact ⟨m, hm, rfl, rfl⟩

/-- Concrete three-turn history for the C3 witness. -/
def history₀ : List Msg :=
  [⟨Role.user, str "Vad handlar dokumentet om?", none⟩,
   ⟨Role.model, str "Det handlar om montering.", some []⟩,
   ⟨Role.user, str "Visa sidan.", none⟩]

theorem C3_regrounding_witness :
    (toBackendEntry (str "files/abc") history₀[0]).parts =
      [ReqPart.fileData appPdf (str "files/abc"),
       ReqPart.text (str "Vad handlar dokumentet om?")] ∧
    (toBackendEntry (str "files/abc") history₀[1]).parts =
      [ReqPart.text (str "Det handlar om montering.")] ∧
    (toBackendEntry (str "files/abc") history₀[2]).parts =
      [ReqPart.fileData appPdf (str "files/abc"), ReqPart.text (str "Visa sidan.")] ∧
    ReqPart.fileData appPdf (str "files/abc") ∈
      newMessageParts (str "files/abc") (str "Och nu?") := by
  have h := C3_regrounding (str "files/abc") (str "Och nu?") history₀
  refine ⟨?_, ?_, ?_, h.2.2.2⟩
  · exact h.1 _ (by decide) rfl
  · exact (h.2.1 _ (by decide) rfl).1
  · exact h.1 _ (by decide) rfl

/-! ## Session view sync (`page.tsx` of the gallery variant) -/

/-- `handlePageReference` of `page.tsx`: receiving a page signal always sets
the highlighted page. -/
def handlePageReference (n : Nat) (_cur : Option Nat) : Option Nat := some n

/-- `handleUploadComplete` of `page.tsx`: completing a new upload resets the
highlight to none, unconditionally. -/
def handleUploadComplete (_cur : Option Nat) : Option Nat := none

/-- Application of an optional emitted page signal to the current highlight:
a signal sets the page, no signal leaves the highlight unchanged. -/
def applySignal (cur : Option Nat) (sig : Option Nat) : Option Nat :=
  match sig with
  | some n => handlePageReference n cur
  | none => cur

/-- C8: Session view sync.  For a freshly produced assistant answer on a
successful call: when `parsePageReferences` of the answer is non-empty, the
signal emitted to the gallery is the first extracted reference and the
highlight becomes that page; when it is empty, no signal is emitted and the
previous highlight is unchanged; and completing a new upload resets the
highlight to none unconditionally. -/
theorem C8_view_sync (st : List Msg) (input ans : List Char)
    (cits : List Citation) (cur : Option Nat) (hin : jsTrim input ≠ []) :
    (parsePageReferences ans ≠ [] →
      (sendMessage st input (FetchOutcome.ok ans cits) true).2 =
        (parsePageReferences ans).head? ∧
      applySignal cur (sendMessage st input (FetchOutcome.ok ans cits) true).2 =
        (parsePageReferences ans).head?) ∧
    (parsePageReferences ans = [] →
      (sendMessage st input (FetchOutcome.ok ans cits) true).2 = none ∧
      applySignal cur (sendMessage st input (FetchOutcome.ok ans cits) true).2 = cur) ∧
    handleUploadComplete cur = none := by
  refine ⟨?_, ?_, rfl⟩
  · intro hne
    have hsig : (sendMessage st input (FetchOutcome.ok ans cits) true).2 =
        (parsePageReferences ans).head? := by
      cases hrefs : parsePageReferences ans with
      | nil => exact absurd hrefs hne
      | cons n rest => simp [sendMessage, hin, hrefs]
    refine ⟨hsig, ?_⟩
    rw [hsig]
    cases hrefs : parsePageReferences ans with
    | nil => exact absurd hrefs hne
    | cons n rest => simp [applySignal, handlePageReference]
  · intro hnil
    have hsig : (sendMessage st input (FetchOutcome.ok ans cits) true).2 = none := by
      simp [sendMessage, hin, hnil]
    exact ⟨hsig, by rw [hsig]; rfl⟩

theorem C8_view_sync_witness :
    (sendMessage [] (str "hej")
        (FetchOutcome.ok (str "Kolla [Se Sida 2] och [Se Sida 9].") []) true).2 =
      some 2 ∧
    applySignal (some 7) (sendMessage [] (str "hej")
        (FetchOutcome.ok (str "inget svar") []) true).2 = some 7 ∧
    handleUploadComplete (some 5) = none := by
  have h1 := (C8_view_sync [] (str "hej") (str "Kolla [Se Sida 2] och [Se Sida 9].")
    [] (some 7) (by decide)).1 (by decide)
  have h2 := (C8_view_sync [] (str "hej") (str "inget svar")
    [] (some 7) (by decide)).2.1 (by decide)
  exact ⟨h1.1.trans (by decide), h2.2, rfl⟩

/-! ## Upload route model (`app/api/upload-pdf/route.ts`)

The two external backends are abstracted into an environment: `statuses k`
is the result of the `k`-th `fileManager.getFile` call, `extraction` is the
settled result of the Python extraction promise (`none` models a failure or
timeout swallowed by its `.catch`), and the `hasFile`/`writeOk`/`registerOk`
flags model the missing-file guard and thrown errors of `writeFile` and
`fileManager.uploadFile`.  The poll loop of the source is unbounded
(`while (state === PROCESSING) { sleep 2000; getFile() }`), so the model
takes a fuel bound on the number of `getFile` calls and returns `none` when
the loop is still running after that many polls; `uploadRun env fuel = none`
for every `fuel` means the route never returns. -/

/-- `ExtractedImage` of `lib/types.ts`. -/
structure Img where
  id : List Char
  pageNumber : Nat
  label : List Char
  url : List Char
  width : Nat
  height : Nat
deriving DecidableEq

/-- The file-processing states checked by the route (`FileState`). -/
inductive FState where
  | processing
  | active
  | failed
deriving DecidableEq

/-- The fixed sleep between two status polls, in milliseconds
(`setTimeout(resolve, 2000)`). -/
def pollIntervalMs : Nat := 2000

/-- The poll loop: return the first non-`processing` status, polling at most
`fuel` times starting from the `k`-th `getFile` call; `none` when every
polled status was still `processing`. -/
def pollLoop (statuses : Nat → FState) : Nat → Nat → Option FState
  | 0, _ => none
  | fuel + 1, k =>
    match statuses k with
    | FState.processing => pollLoop statuses fuel (k + 1)
    | st => some st

/-- Environment of one POST call to the upload route. -/
structure UploadEnv where
  hasFile : Bool
  writeOk : Bool
  registerOk : Bool
  fileName : List Char
  fileUri : List Char
  statuses : Nat → FState
  extraction : Option (List Char × List Img)

/-- The JSON responses of the upload route. -/
inductive RouteResponse where
  | ok (fileName fileUri sessionId : List Char) (images : List Img)
  | errMissingFile
  | errUploadFailed
deriving DecidableEq

/-- Observable events of one route execution: the temporary spooled file is
written, the temporary file is unlinked, the response is returned. -/
inductive Ev where
  | tmpWrite
  | tmpUnlink
  | respond (r : RouteResponse)
deriving DecidableEq

/-- One execution of the upload route POST handler: the response and the
ordered trace of temporary-file and response events.  `none` means the poll
loop was still in `processing` after `fuel` polls (the handler has not
returned).  Every `throw` lands in the catch block, which unlinks the
temporary file (when created) before responding 500. -/
def uploadRun (env : UploadEnv) (fuel : Nat) : Option (RouteResponse × List Ev) :=
  if env.hasFile = false then
    some (RouteResponse.errMissingFile, [Ev.respond RouteResponse.errMissingFile])
  else if env.writeOk = false then
    some (RouteResponse.errUploadFailed,
      [Ev.tmpWrite, Ev.tmpUnlink, Ev.respond RouteResponse.errUploadFailed])
  else if env.registerOk = false then
    some (RouteResponse.errUploadFailed,
      [Ev.tmpWrite, Ev.tmpUnlink, Ev.respond RouteResponse.errUploadFailed])
  else
    match pollLoop env.statuses fuel 0 with
    | none => none
    | some FState.failed =>
      some (RouteResponse.errUploadFailed,
        [Ev.tmpWrite, Ev.tmpUnlink, Ev.respond RouteResponse.errUploadFailed])
    | some _ =>
      let sid := match env.extraction with
        | some (s, _) => s
        | none => []
      let imgs := match env.extraction with
        | some (_, l) => l
        | none => []
      some (RouteResponse.ok env.fileName env.fileUri sid imgs,
        [Ev.tmpWrite, Ev.tmpUnlink,
          Ev.respond (RouteResponse.ok env.fileName env.fileUri sid imgs)])

/-- C4: Non-fatal extraction.  When the document registers and processes
successfully but the page-image extraction fails or times out
(`extraction = none`), the route still responds successfully with an empty
pages list, an empty session id, and the valid registered document URI. -/
theorem C4_nonfatal_extraction (env : UploadEnv) (fuel : Nat)
    (h1 : env.hasFile = true) (h2 : env.writeOk = true) (h3 : env.registerOk = true)
    (h4 : pollLoop env.statuses fuel 0 = some FState.active)
    (h5 : env.extraction = none) :
    uploadRun env fuel =
      some (RouteResponse.ok env.fileName env.fileUri [] [],
        [Ev.tmpWrite, Ev.tmpUnlink,
          Ev.respond (RouteResponse.ok env.fileName env.fileUri [] [])]) := by
  simp [uploadRun, h1, h2, h3, h4, h5]

/-- Concrete environment with an always-failing extraction backend for the
C4 witness. -/
def envNoExtract : UploadEnv :=
  { hasFile := true, writeOk := true, registerOk := true,
    fileName := str "manual.pdf", fileUri := str "files/abc123",
    statuses := fun _ => FState.active, extraction := none }

theorem C4_nonfatal_extraction_witness :
    (uploadRun envNoExtract 1).map Prod.fst =
      some (RouteResponse.ok (str "manual.pdf") (str "files/abc123") [] []) := by
  have h := C4_nonfatal_extraction envNoExtract 1 rfl rfl rfl rfl rfl
  rw [h]
  rfl

/-- C6: Temporary resource release.  In every terminating execution of the
route, if the temporary spooled file was written then it is unlinked before
the response event, which is the last event of the trace: the temporary file
is released on every exit path — success, partial failure or exception —
before the handler returns.  (The temporary path never escapes the handler:
no response constructor carries it.) -/
theorem C6_temp_release (env : UploadEnv) (fuel : Nat) (res : RouteResponse)
    (tr : List Ev) (h : uploadRun env fuel = some (res, tr))
    (hw : Ev.tmpWrite ∈ tr) :
    Ev.tmpUnlink ∈ tr ∧
    tr.getLast? = some (Ev.respond res) ∧
    ∃ i j : Nat, i < j ∧ tr[i]? = some Ev.tmpWrite ∧ tr[j]? = some Ev.tmpUnlink := by
  unfold uploadRun at h
  by_cases h1 : env.hasFile = false
  · rw [if_pos h1] at h
    obtain ⟨rfl, rfl⟩ : res = RouteResponse.errMissingFile ∧
        tr = [Ev.respond RouteResponse.errMissingFile] := by
      have := Option.some.inj h
      exact ⟨(Prod.mk.injEq _ _ _ _ ▸ this).1.symm, (Prod.mk.injEq _ _ _ _ ▸ this).2.symm⟩
    simp at hw
  · rw [if_neg h1] at h
    by_cases h2 : env.writeOk = false
    · rw [if_pos h2] at h
      have := Option.some.inj h
      obtain ⟨hres, htr⟩ := Prod.mk.injEq _ _ _ _ ▸ this
      subst hres; subst htr
      exact ⟨by simp, rfl, 0, 1, by omega, rfl, rfl⟩
    · rw [if_neg h2] at h
      by_cases h3 : env.registerOk = false
      · rw [if_pos h3] at h
        have := Option.some.inj h
        obtain ⟨hres, htr⟩ := Prod.mk.injEq _ _ _ _ ▸ this
        subst hres; subst htr
        exact ⟨by simp, rfl, 0, 1, by omega, rfl, rfl⟩
      · rw [if_neg h3] at h
        cases hp : pollLoop env.statuses fuel 0 with
        | none => rw [hp] at h; cases h
        | some st =>
          rw [hp] at h
          cases st with
          | processing =>
            have := Option.some.inj h
            obtain ⟨hres, htr⟩ := Prod.mk.injEq _ _ _ _ ▸ this
            subst hres; subst htr
            exact ⟨by simp, rfl, 0, 1, by omega, rfl, rfl⟩
          | active =>
            have := Option.some.inj h
            obtain ⟨hres, htr⟩ := Prod.mk.injEq _ _ _ _ ▸ this
            subst hres; subst htr
            exact ⟨by simp, rfl, 0, 1, by omega, rfl, rfl⟩
          | failed =>
            have := Option.some.inj h
            obtain ⟨hres, htr⟩ := Prod.mk.injEq _ _ _ _ ▸ this
            subst hres; subst htr
            exact ⟨by simp, rfl, 0, 1, by omega, rfl, rfl⟩

theorem C6_temp_release_witness :
    Ev.tmpUnlink ∈ [Ev.tmpWrite, Ev.tmpUnlink,
      Ev.respond (RouteResponse.ok (str "manual.pdf") (str "files/abc123") [] [])] := by
  have h := C6_temp_release envNoExtract 1
    (RouteResponse.ok (str "manual.pdf") (str "files/abc123") [] [])
    [Ev.tmpWrite, Ev.tmpUnlink,
      Ev.respond (RouteResponse.ok (str "manual.pdf") (str "files/abc123") [] [])]
    (by rfl) (by simp)
  exact h.1

/-! ## C5: the poll loop is not bounded -/

theorem pollLoop_const_processing :
    ∀ (fuel k : Nat), pollLoop (fun _ => FState.processing) fuel k = none := by
  intro fuel
  induction fuel with
  | zero => intro k; rfl
  | succ f ih => intro k; simpa [pollLoop] using ih (k + 1)

/-- The route never returns, no matter how many polls are allowed. -/
def neverReturns (env : UploadEnv) : Prop := ∀ fuel, uploadRun env fuel = none

/-- Concrete environment whose backend reports `processing` forever. -/
def envStuck : UploadEnv :=
  { hasFile := true, writeOk := true, registerOk := true,
    fileName := str "manual.pdf", fileUri := str "files/abc123",
    statuses := fun _ => FState.processing, extraction := none }

/-- C5 counterexample: with a backend that never leaves `processing`, the
poll loop never terminates — the route never responds at all (in particular
it never raises a processing-failure error), refuting the claimed overall
timeout bound. -/
theorem C5_unbounded_counterexample : neverReturns envStuck := by
  intro fuel
  simp [uploadRun, envStuck, pollLoop_const_processing fuel 0]

theorem pollLoop_reaches (statuses : Nat → FState) :
    ∀ (fuel k i : Nat) (st : FState), i < fuel →
      (∀ j, j < i → statuses (k + j) = FState.processing) →
      statuses (k + i) = st → st ≠ FState.processing →
      pollLoop statuses fuel k = some st := by
  intro fuel
  induction fuel with
  | zero => intro k i st hi _ _ _; omega
  | succ f ih =>
    intro k i st hi hproc hst hne
    cases i with
    | zero =>
      simp only [pollLoop]
      rw [show statuses k = st from by simpa using hst]
      cases st with
      | processing => exact absurd rfl hne
      | active => rfl
      | failed => rfl
    | succ i' =>
      have h0 : statuses k = FState.processing := by
        simpa using hproc 0 (by omega)
      simp only [pollLoop, h0]
      refine ih (k + 1) i' st (by omega) ?_ ?_ hne
      · intro j hj
        have := hproc (j + 1) (by omega)
        simpa [Nat.add_assoc, Nat.add_comm 1 j] using this
      · simpa [Nat.add_assoc, Nat.add_comm 1 i'] using hst

/-- C5 (amended): the registration poll loop runs on a fixed 2-second
interval and stops at the first status that is not `processing` — a terminal
`failed` status makes the route fail with a 500 error — but the loop is not
bounded by any overall timeout: when the backend never leaves `processing`,
the route polls forever and never returns. -/
theorem C5_poll_loop (env : UploadEnv) (fuel : Nat)
    (h1 : env.hasFile = true) (h2 : env.writeOk = true) (h3 : env.registerOk = true) :
    pollIntervalMs = 2000 ∧
    (pollLoop env.statuses fuel 0 = some FState.failed →
      (uploadRun env fuel).map Prod.fst = some RouteResponse.errUploadFailed) ∧
    (∀ i : Nat, i < fuel → (∀ j, j < i → env.statuses j = FState.processing) →
      env.statuses i ≠ FState.processing → uploadRun env fuel ≠ none) ∧
    ((∀ k, env.statuses k = FState.processing) → uploadRun env fuel = none) := by
  refine ⟨rfl, ?_, ?_, ?_⟩
  · intro hp
    simp [uploadRun, h1, h2, h3, hp]
  · intro i hi hproc hne
    have hp : pollLoop env.statuses fuel 0 = some (env.statuses i) :=
      pollLoop_reaches env.statuses fuel 0 i (env.statuses i) hi
        (fun j hj => by simpa using hproc j hj) (by simp) hne
    cases hst : env.statuses i with
    | processing => exact absurd hst hne
    | active =>
      rw [hst] at hp
      simp [uploadRun, h1, h2, h3, hp]
    | failed =>
      rw [hst] at hp
      simp [uploadRun, h1, h2, h3, hp]
  · intro hall
    have hp : pollLoop env.statuses fuel 0 = none := by
      have : env.statuses = fun _ => FState.processing := funext hall
      rw [this]
      exact pollLoop_const_processing fuel 0
    simp [uploadRun, h1, h2, h3, hp]

/-- Environment whose backend reports a terminal failure at the first poll. -/
def envFailed : UploadEnv :=
  { hasFile := true, writeOk := true, registerOk := true,
    fileName := str "manual.pdf", fileUri := str "files/abc123",
    statuses := fun _ => FState.failed, extraction := none }

theorem C5_poll_loop_witness :
    (uploadRun envFailed 1).map Prod.fst = some RouteResponse.errUploadFailed := by
  exact (C5_poll_loop envFailed 1 rfl rfl rfl).2.1 rfl

/-! ## Instruction builder (`buildSystemInstruction` of the chat route) -/

/-- `Array.prototype.join(sep)`. -/
def joinSep (sep : List Char) : List (List Char) → List Char
  | [] => []
  | [x] => x
  | x :: y :: xs => x ++ sep ++ joinSep sep (y :: xs)

theorem joinSep_mem_decomp (sep : List Char) :
    ∀ (l : List (List Char)) (x : List Char), x ∈ l →
      ∃ u v, joinSep sep l = u ++ x ++ v := by
  intro l
  induction l with
  | nil => intro x hx; cases hx
  | cons y ys ih =>
    intro x hx
    rcases List.mem_cons.mp hx with rfl | hmem
    · cases ys with
      | nil => exact ⟨[], [], by simp [joinSep]⟩
      | cons z zs => exact ⟨[], sep ++ joinSep sep (z :: zs), by simp [joinSep]⟩
    · obtain ⟨u, v, huv⟩ := ih x hmem
      cases ys with
      | nil => cases hmem
      | cons z zs =>
        exact ⟨y ++ sep ++ u, v, by simp [joinSep, huv, List.append_assoc]⟩

/-- The fixed base grounding instruction of `buildSystemInstruction`. -/
def baseInstruction : List Char :=
  str "Du är en dokumentassistent som ENDAST svarar baserat på innehållet i det bifogade PDF-dokumentet.\n\nSTRIKTA REGLER:\n1. Svara ENDAST med information som finns i PDF-dokumentet\n2. Om informationen INTE finns i dokumentet, säg tydligt: \"Jag kan inte hitta information om detta i dokumentet.\"\n3. Citera eller referera till specifika delar av dokumentet när du svarar\n4. Gissa eller hitta på ALDRIG information\n5. Om frågan är otydlig, be om förtydligande\n6. Svara på samma språk som användaren skriver\n\nKom ihåg: Det är bättre att säga \"jag vet inte\" än att ge felaktig information."

/-- One line of the page listing: `- ${img.label} (${img.id})`. -/
def imageLine (img : Img) : List Char :=
  str "- " ++ img.label ++ str " (" ++ img.id ++ str ")"

/-- `imageList`: the listing of every page, joined with newlines. -/
def imageListText (images : List Img) : List Char :=
  joinSep (str "\n") (images.map imageLine)

/-- The label interpolated into the marker format directive:
`images[0]?.label || 'Sida X'` (the fallback also fires on an empty label,
since `''` is falsy). -/
def labelOrDefault (images : List Img) : List Char :=
  match images.head? with
  | some img => if img.label = [] then str "Sida X" else img.label
  | none => str "Sida X"

/-- The worked-example marker of the format directive:
`[Se ${images[0]?.label || 'Sida X'}]`. -/
def exampleMarker (images : List Img) : List Char :=
  str "[Se " ++ labelOrDefault images ++ str "]"

/-- Literal text between the page listing and the example marker. -/
def refDirectivePre : List Char :=
  str "\n\nBILDREFERENSER:\n- När du beskriver monteringssteg eller instruktioner, referera ALLTID till relevant sida\n- Använd formatet: "

/-- Literal text after the example marker, ending with the hard-coded
example sentence `Enligt instruktionerna [Se Sida 3] ska du först...`. -/
def refDirectivePost : List Char :=
  str " för att hänvisa till en specifik sida\n- Om en fråga handlar om något visuellt (diagram, bild, illustration), ange vilken sida det finns på\n- Exempel: \"Enligt instruktionerna [Se Sida 3] ska du först...\""

/-- Header of the page-listing section. -/
def sidorHeader : List Char :=
  str "\n\nDOKUMENTETS SIDOR:\nDokumentet har följande sidor som bilder:\n"

/-- `imageInstruction`: the page-reference section appended when pages
exist. -/
def imageInstruction (images : List Img) : List Char :=
  sidorHeader ++ imageListText images ++ refDirectivePre ++ exampleMarker images
    ++ refDirectivePost

/-- `buildSystemInstruction(images?)`: the base instruction, plus the
page-reference section when the optional image list is present and
non-empty. -/
def buildSystemInstruction (images : Option (List Img)) : List Char :=
  match images with
  | none => baseInstruction
  | some imgs =>
    if imgs.length = 0 then baseInstruction
    else baseInstruction ++ imageInstruction imgs

theorem parseP_single_marker {m : PageMarker} (hm : m.wf) :
    parsePageReferences m.text = [m.num] := by
  have h := parseP_plain_marker noMarker_nil (m := m) hm []
  simpa [parseP_nil] using h

/-- C7 counterexample: `buildSystemInstruction` with a single page labelled
`Bild 1` (the label shape documented in `lib/types.ts`) embeds the worked
example `[Se Bild 1]` in the format directive, and that marker is not
matched by the Reference Extractor (`parsePageReferences` finds nothing in
it) — so the worked example that uses `pages[0]`\u2019s label does not match the
extractor pattern in general. -/
theorem C7_example_mismatch_counterexample :
    exampleMarker [⟨str "img-1", 1, str "Bild 1", str "u", 100, 100⟩] = str "[Se Bild 1]" ∧
    parsePageReferences
      (exampleMarker [⟨str "img-1", 1, str "Bild 1", str "u", 100, 100⟩]) = [] ∧
    (∃ u v, buildSystemInstruction
        (some [⟨str "img-1", 1, str "Bild 1", str "u", 100, 100⟩]) =
      u ++ exampleMarker [⟨str "img-1", 1, str "Bild 1", str "u", 100, 100⟩] ++ v) := by
  refine ⟨by decide, by decide,
    ⟨baseInstruction ++ sidorHeader
      ++ imageListText [⟨str "img-1", 1, str "Bild 1", str "u", 100, 100⟩]
      ++ refDirectivePre, refDirectivePost, ?_⟩⟩
  simp [buildSystemInstruction, imageInstruction, List.append_assoc]

/-- C7 (amended): `buildSystemInstruction` is a pure function of its pages
argument; a missing or empty pages list yields exactly the base grounding
instruction; a non-empty list appends the page-reference section, which
lists every page (`- label (id)`), contains the format directive whose
worked example interpolates the label of `pages[0]` (falling back to
`Sida X` for an absent or empty label), and ends with the hard-coded example
sentence containing `[Se Sida 3]`, which always matches the extractor; but
the interpolated worked example matches the Reference Extractor pattern
only when the label has the shape `Sida N` — the canonical marker
`[Se Sida N]` parses to `[N]` for every `N`, while labels of another shape
(see the counterexample) do not match. -/
theorem C7_instruction_builder (images : List Img) (hne : images ≠ []) :
    buildSystemInstruction none = baseInstruction ∧
    buildSystemInstruction (some []) = baseInstruction ∧
    buildSystemInstruction (some images) =
      baseInstruction ++ sidorHeader ++ imageListText images ++ refDirectivePre
        ++ exampleMarker images ++ refDirectivePost ∧
    (∀ img ∈ images, ∃ u v, imageListText images = u ++ imageLine img ++ v) ∧
    (∀ img₀, images.head? = some img₀ → img₀.label ≠ [] →
      exampleMarker images = str "[Se " ++ img₀.label ++ str "]") ∧
    (∀ n : Nat, parsePageReferences
      (str "[Se Sida " ++ natToDigitChars n ++ str "]") = [n]) ∧
    parsePageReferences (str "Enligt instruktionerna [Se Sida 3] ska du först...") =
      [3] := by
  refine ⟨rfl, rfl, ?_, ?_, ?_, ?_, by decide⟩
  · have hlen : ¬ images.length = 0 := by
      intro hc
      exact hne (List.length_eq_zero.mp hc)
    simp [buildSystemInstruction, hlen, imageInstruction, List.append_assoc]
  · intro img hmem
    exact joinSep_mem_decomp (str "\n") (images.map imageLine) (imageLine img)
      (List.mem_map_of_mem _ hmem)
  · intro img₀ h0 hlab
    simp [exampleMarker, labelOrDefault, h0, hlab]
  · intro n
    have h := parseP_single_marker (canonicalMarker_wf n)
    rw [canonicalMarker_text, canonicalMarker_num] at h
    simpa [List.append_assoc] using h

theorem C7_instruction_builder_witness :
    buildSystemInstruction none = baseInstruction ∧
    parsePageReferences (str "Enligt instruktionerna [Se Sida 3] ska du först...") =
      [3] ∧
    exampleMarker [⟨str "img-1", 1, str "Sida 1", str "u", 100, 100⟩] =
      str "[Se Sida 1]" ∧
    parsePageReferences
      (exampleMarker [⟨str "img-1", 1, str "Sida 1", str "u", 100, 100⟩]) = [1] := by
  have h := C7_instruction_builder
    [⟨str "img-1", 1, str "Sida 1", str "u", 100, 100⟩] (by decide)
  refine ⟨h.1, h.2.2.2.2.2.2, ?_, by decide⟩
  exact (h.2.2.2.2.1 _ rfl (by decide)).trans (by decide)

/-! ## Citation normalization (chat route) -/

/-- `chunk.web` of a grounding chunk: optional title and uri. -/
structure WebChunk where
  title : Option (List Char)
  uri : Option (List Char)
deriving DecidableEq

/-- One entry of `groundingMetadata.groundingChunks`; only chunks with a
`web` field are used. -/
structure GroundingChunk where
  web : Option WebChunk
deriving DecidableEq

/-- `candidate.groundingMetadata`, with its optional chunk list. -/
structure GroundingMetadata where
  groundingChunks : Option (List GroundingChunk)
deriving DecidableEq

/-- One response candidate. -/
structure Candidate where
  groundingMetadata : Option GroundingMetadata
deriving DecidableEq

/-- The backend response as read by the chat route: the optional candidate
list and the answer text. -/
structure GenResponse where
  candidates : Option (List Candidate)
  answerText : List Char

/-- `response.candidates?.[0]?.groundingMetadata`. -/
def groundingMetadataOf (resp : GenResponse) : Option GroundingMetadata :=
  (resp.candidates.bind fun cs => cs.head?).bind Candidate.groundingMetadata

/-- `chunk.web.title || 'Source'`: the falsy default also fires on an empty
title string. -/
def titleOf (w : WebChunk) : List Char :=
  match w.title with
  | some t => if t = [] then str "Source" else t
  | none => str "Source"

/-- The citation pushed for one grounding chunk, when it has a `web` field:
defaulted title, empty excerpt text, the web uri. -/
def citeOfChunk (ch : GroundingChunk) : Option Citation :=
  ch.web.map fun w => ⟨titleOf w, [], w.uri⟩

/-- Citation extraction of the chat route: empty unless the metadata chain
`candidates → [0] → groundingMetadata → groundingChunks` is present, then
one citation per chunk that has a `web` field, in order. -/
def extractCitations (resp : GenResponse) : List Citation :=
  match groundingMetadataOf resp with
  | none => []
  | some gm =>
    match gm.groundingChunks with
    | none => []
    | some chunks => chunks.filterMap citeOfChunk

theorem titleOf_ne_nil (w : WebChunk) : titleOf w ≠ [] := by
  cases hw : w.title with
  | none => simp [titleOf, hw]; decide
  | some t =>
    by_cases ht : t = []
    · simp [titleOf, hw, ht]; decide
    · simp [titleOf, hw, ht]

/-- C9: Citation normalization.  The chat route produces an empty citation
list whenever any link of the grounding-metadata chain is absent — it never
assumes the metadata is present — and every produced citation comes from a
grounding chunk with a `web` field, carrying the (defaulted, non-empty)
title, an empty excerpt text, and the chunk uri passed through as-is. -/
theorem C9_citations (resp : GenResponse) :
    (groundingMetadataOf resp = none → extractCitations resp = []) ∧
    (∀ gm, groundingMetadataOf resp = some gm → gm.groundingChunks = none →
      extractCitations resp = []) ∧
    (∀ cit ∈ extractCitations resp,
      cit.text = [] ∧ cit.title ≠ [] ∧
      ∃ gm chunks ch w, groundingMetadataOf resp = some gm ∧
        gm.groundingChunks = some chunks ∧ ch ∈ chunks ∧ ch.web = some w ∧
        cit = ⟨titleOf w, [], w.uri⟩) := by
  refine ⟨?_, ?_, ?_⟩
  · intro h
    simp [extractCitations, h]
  · intro gm hgm hchunks
    simp [extractCitations, hgm, hchunks]
  · intro cit hcit
    unfold extractCitations at hcit
    cases hgm : groundingMetadataOf resp with
    | none => simp only [hgm] at hcit; cases hcit
    | some gm =>
      simp only [hgm] at hcit
      cases hch : gm.groundingChunks with
      | none => simp only [hch] at hcit; cases hcit
      | some chunks =>
        simp only [hch] at hcit
        obtain ⟨ch, hchmem, hcite⟩ := List.mem_filterMap.mp hcit
        cases hw : ch.web with
        | none => simp only [citeOfChunk, hw, Option.map_none] at hcite; cases hcite
        | some w =>
          simp only [citeOfChunk, hw, Option.map_some] at hcite
          have hcit_eq : cit = ⟨titleOf w, [], w.uri⟩ := by
            simpa using hcite.symm
          subst hcit_eq
          exact ⟨rfl, titleOf_ne_nil w, gm, chunks, ch, w, rfl, hch, hchmem, hw, rfl⟩

/-- Response without any candidates, for the C9 witness. -/
def respNoMeta : GenResponse := ⟨none, str "svar"⟩

/-- Response with one web chunk (untitled) and one webless chunk, for the
C9 witness. -/
def respWeb : GenResponse :=
  ⟨some [⟨some ⟨some [⟨some ⟨none, some (str "https://x")⟩⟩, ⟨none⟩]⟩⟩],
    str "svar"⟩

theorem C9_citations_witness :
    extractCitations respNoMeta = [] ∧
    extractCitations respWeb = [⟨str "Source", [], some (str "https://x")⟩] ∧
    (Citation.mk (str "Source") [] (some (str "https://x"))).text = [] := by
  refine ⟨(C9_citations respNoMeta).1 rfl, by decide, ?_⟩
  exact ((C9_citations respWeb).2.2 ⟨str "Source", [], some (str "https://x")⟩
    (by decide)).1

/-! ## C10: page numbers are not validated against the page inventory -/

/-- C10: for any nonempty digit run `ds`, a marker `[Se Sida <ds>]` inside
an answer produces a clickable token carrying `parseInt(ds)` (labelled
`Sida parseInt(ds)`), and when it is the first reference of the answer the
emitted highlight signal is that same number — with no reference to the
document page inventory anywhere (`parsePageReferences`,
`formatMessageContent` and the signal computation take no pages argument),
so this holds when the number is `0`, exceeds the number of extracted pages,
or the pages list is empty. -/
theorem C10_no_validation (ds t tl : List Char) (st : List Msg)
    (input : List Char) (cits : List Citation) (cur : Option Nat)
    (hds1 : ds ≠ []) (hds2 : ∀ c ∈ ds, c.isDigit = true)
    (ht : parsePageReferences t = []) (htl : parsePageReferences tl = [])
    (hin : jsTrim input ≠ []) :
    formatMessageContent (t ++ (str "[Se Sida " ++ ds ++ str "]") ++ tl) =
      [Seg.text t, Seg.ref (digitsToNat ds), Seg.text tl] ∧
    parsePageReferences (t ++ (str "[Se Sida " ++ ds ++ str "]") ++ tl) =
      [digitsToNat ds] ∧
    (sendMessage st input
      (FetchOutcome.ok (t ++ (str "[Se Sida " ++ ds ++ str "]") ++ tl) cits)
      true).2 = some (digitsToNat ds) ∧
    applySignal cur (some (digitsToNat ds)) = some (digitsToNat ds) ∧
    refButtonLabel (digitsToNat ds) = str "Sida " ++ natToDigitChars (digitsToNat ds) := by
  have ht' : noMarker t := parseP_eq_nil_iff_noMarker.mp ht
  have htl' : noMarker tl := parseP_eq_nil_iff_noMarker.mp htl
  set m : PageMarker := ⟨['S', 'e', ' ', 'S', 'i', 'd', 'a', ' '], ds⟩ with hmdef
  have hm : m.wf :=
    ⟨(by decide :
        matchesHeader header ['S', 'e', ' ', 'S', 'i', 'd', 'a', ' '] = true),
      hds1, hds2⟩
  have htext : str "[Se Sida " ++ ds ++ str "]" = m.text := by
    have h1 : str "[Se Sida " = '[' :: ['S', 'e', ' ', 'S', 'i', 'd', 'a', ' '] := by
      decide
    have h2 : str "]" = [']'] := by decide
    simp [PageMarker.text, markerCore, hmdef, h1, h2, List.append_assoc]
  have hnum : m.num = digitsToNat ds := rfl
  have hfmt : formatMessageContent (t ++ (str "[Se Sida " ++ ds ++ str "]") ++ tl) =
      [Seg.text t, Seg.ref (digitsToNat ds), Seg.text tl] := by
    rw [htext, formatMessageContent_eq_scanA, scanA_plain_marker ht' hm tl [],
      scanA_plain_tail htl' [], hnum]
    simp
  have hrefs : parsePageReferences (t ++ (str "[Se Sida " ++ ds ++ str "]") ++ tl) =
      [digitsToNat ds] := by
    rw [htext, parseP_plain_marker ht' hm tl, htl, hnum]
  have hrefs2 : parsePageReferences
      (t ++ (str "[Se Sida " ++ (ds ++ (str "]" ++ tl)))) = [digitsToNat ds] := by
    simpa [List.append_assoc] using hrefs
  refine ⟨hfmt, hrefs, ?_, rfl, rfl⟩
  simp [sendMessage, hin, hrefs2]

theorem C10_no_validation_witness :
    formatMessageContent
        (str "Montera hyllan " ++ (str "[Se Sida " ++ ['0'] ++ str "]") ++ str " forst.") =
      [Seg.text (str "Montera hyllan "), Seg.ref 0, Seg.text (str " forst.")] ∧
    (sendMessage [] (str "hej")
      (FetchOutcome.ok
        (str "Montera hyllan " ++ (str "[Se Sida " ++ ['0'] ++ str "]") ++ str " forst.")
        []) true).2 = some 0 := by
  have h := C10_no_validation ['0'] (str "Montera hyllan ") (str " forst.")
    [] (str "hej") [] none (by decide) (by decide) (by decide) (by decide) (by decide)
  exact ⟨h.1.trans (by decide), h.2.2.1.trans (by decide)⟩

end GfsSpec
